import Mathlib

/-!
Verification of `scripts/patch_ordinals_api.py`.

The script reads the file named by its first command-line argument, replaces
every occurrence of the literal `export const BRC20_GENESIS_BLOCK = 779832;`
by `export const BRC20_GENESIS_BLOCK = 0;` (Python `str.replace`, i.e.
left-to-right, non-overlapping, replace-all), and writes the result back to
the same path.

File contents are modelled as `List Char` (Python reads the file as one text
string).  The filesystem is modelled as a partial map from paths to contents,
and a run of the script is a pure function from the argument vector and the
filesystem to an outcome recording the error (if any), the final filesystem,
what was printed, and which files were read or written.
-/

namespace PatchOrdinals

/-- Search literal of the substitution rule, from line 10 of
`scripts/patch_ordinals_api.py` (first argument of `filedata.replace`). -/
def searchLit : List Char := "export const BRC20_GENESIS_BLOCK = 779832;".toList

/-- Replacement literal of the substitution rule, from line 10 of
`scripts/patch_ordinals_api.py` (second argument of `filedata.replace`). -/
def replLit : List Char := "export const BRC20_GENESIS_BLOCK = 0;".toList

/-- Python `str.replace(pat, rep)` for a non-empty pattern: scan left to
right; at each position, if `pat` starts here, emit `rep` and skip past the
match (non-overlapping), otherwise copy one character.  (The script only ever
calls `replace` with the fixed non-empty literal `searchLit`, so the guard
`pat ≠ []` is always satisfied there; Python's special behaviour on an empty
pattern is out of scope.) -/
def replaceAll (pat rep : List Char) (s : List Char) : List Char :=
  match s with
  | [] => []
  | c :: cs =>
    if h : pat ≠ [] ∧ pat <+: (c :: cs) then
      rep ++ replaceAll pat rep ((c :: cs).drop pat.length)
    else
      c :: replaceAll pat rep cs
termination_by s.length
decreasing_by
  · simp only [List.length_drop, List.length_cons]
    have hp : 0 < pat.length := List.length_pos.mpr h.1
    omega
  · simp only [List.length_cons]
    omega

/-- Number of (leftmost, non-overlapping) matches that `replaceAll` replaces:
the same scan as `replaceAll`, counting hits instead of substituting. -/
def countOccs (pat : List Char) (s : List Char) : Nat :=
  match s with
  | [] => 0
  | c :: cs =>
    if h : pat ≠ [] ∧ pat <+: (c :: cs) then
      countOccs pat ((c :: cs).drop pat.length) + 1
    else
      countOccs pat cs
termination_by s.length
decreasing_by
  · simp only [List.length_drop, List.length_cons]
    have hp : 0 < pat.length := List.length_pos.mpr h.1
    omega
  · simp only [List.length_cons]
    omega

/-- Content transformation performed by line 10 of the script:
`filedata.replace("export const BRC20_GENESIS_BLOCK = 779832;",
"export const BRC20_GENESIS_BLOCK = 0;")`. -/
def patchContent (s : List Char) : List Char :=
  replaceAll searchLit replLit s

theorem searchLit_ne_nil : searchLit ≠ [] := by decide

theorem searchLit_length : searchLit.length = 42 := by decide

theorem replLit_length : replLit.length = 37 := by decide

/-- Containment of `pat` in `s` is the same as `pat` starting at some
position `j` of `s`. -/
theorem infixIffOcc (pat s : List Char) : pat <:+: s ↔ ∃ j, pat <+: s.drop j := by
  constructor
  · rintro ⟨l, r, rfl⟩
    refine ⟨l.length, ?_⟩
    rw [List.append_assoc, List.drop_left]
    exact List.prefix_append pat r
  · rintro ⟨j, t, ht⟩
    exact ⟨s.take j, t, by rw [List.append_assoc, ht, List.take_append_drop]⟩

/-- Splitting a list at a prefix. -/
theorem eq_append_drop_of_pref {pat s : List Char} (h : pat <+: s) :
    s = pat ++ s.drop pat.length := by
  obtain ⟨t, rfl⟩ := h
  rw [List.drop_left]

theorem intercalate_cons₂ (sep x y : List Char) (ys : List (List Char)) :
    List.intercalate sep (x :: y :: ys) = x ++ sep ++ List.intercalate sep (y :: ys) := by
  simp [List.intercalate, List.intersperse]

theorem intercalate_single (sep x : List Char) :
    List.intercalate sep [x] = x := by
  simp [List.intercalate, List.intersperse]

/-- Modelled from the spec: "produce a new string equal to the original with
every non-overlapping occurrence of the search literal replaced by the
replacement literal (replace-all semantics, left-to-right, non-overlapping
matches)".  `GreedyDecomp pat chunks` says that `chunks` are the pieces of a
string lying between the matches chosen by a left-to-right non-overlapping
scan: no occurrence of `pat` starts inside any piece (in particular none at
all in the final piece), so the matched spans are exactly the separators of
`List.intercalate pat chunks`, found leftmost-first. -/
def GreedyDecomp (pat : List Char) : List (List Char) → Prop
  | [] => False
  | [d] => ∀ j, ¬ pat <+: d.drop j
  | d :: d' :: ds =>
      (∀ j, j < d.length → ¬ pat <+: (d ++ pat).drop j) ∧ GreedyDecomp pat (d' :: ds)

theorem GreedyDecomp.ne_nil {pat : List Char} {cs : List (List Char)}
    (h : GreedyDecomp pat cs) : cs ≠ [] := by
  intro hc
  rw [hc] at h
  exact h

/-- Key refinement: the scan of `replaceAll` performs exactly the
leftmost-first, non-overlapping decomposition described by the spec. -/
theorem replaceAll_decomp (pat rep : List Char) (hp : pat ≠ []) :
    ∀ s : List Char, ∃ chunks : List (List Char),
      GreedyDecomp pat chunks ∧ s = List.intercalate pat chunks ∧
      replaceAll pat rep s = List.intercalate rep chunks := by
  intro s
  induction s using replaceAll.induct pat rep with
  | case1 =>
    refine ⟨[[]], ?_, ?_, ?_⟩
    · intro j
      simpa using hp
    · rw [intercalate_single]
    · rw [replaceAll, intercalate_single]
  | case2 c cs h ih =>
    obtain ⟨chunks, hg, hs, hr⟩ := ih
    cases chunks with
    | nil => exact absurd rfl hg.ne_nil
    | cons d ds =>
      refine ⟨[] :: d :: ds, ⟨fun j hj => absurd hj (by simp), hg⟩, ?_, ?_⟩
      · rw [intercalate_cons₂, ← hs, List.nil_append]
        exact eq_append_drop_of_pref h.2
      · rw [replaceAll, dif_pos h, hr, intercalate_cons₂, List.nil_append]
  | case3 c cs h ih =>
    have hnp : ¬ pat <+: c :: cs := fun hh => h ⟨hp, hh⟩
    obtain ⟨chunks, hg, hs, hr⟩ := ih
    cases chunks with
    | nil => exact absurd rfl hg.ne_nil
    | cons d ds =>
      cases ds with
      | nil =>
        rw [intercalate_single] at hs hr
        refine ⟨[c :: d], ?_, ?_, ?_⟩
        · intro j
          cases j with
          | zero => rw [List.drop_zero, ← hs]; exact hnp
          | succ k => exact hg k
        · rw [intercalate_single, hs]
        · rw [intercalate_single, replaceAll, dif_neg h, hr]
      | cons d' ds' =>
        rw [intercalate_cons₂] at hs hr
        refine ⟨(c :: d) :: d' :: ds', ⟨?_, hg.2⟩, ?_, ?_⟩
        · intro j hj
          cases j with
          | zero =>
            rw [List.drop_zero]
            intro hpre
            apply hnp
            have : (c :: cs : List Char)
                = (c :: (d ++ pat)) ++ List.intercalate pat (d' :: ds') := by
              rw [hs]; simp
            rw [this]
            exact hpre.trans (List.prefix_append _ _)
          | succ k =>
            have hk : k < d.length := by simpa using hj
            have : ((c :: d) ++ pat).drop (k + 1) = (d ++ pat).drop k := by simp
            rw [this]
            exact hg.1 k hk
        · rw [intercalate_cons₂, hs]; simp
        · rw [intercalate_cons₂, replaceAll, dif_neg h, hr]; simp

/-- When no occurrence of the pattern starts anywhere, the scan copies the
string unchanged. -/
theorem replaceAll_of_no_occ (pat rep : List Char) :
    ∀ s : List Char, (∀ j, ¬ pat <+: s.drop j) → replaceAll pat rep s = s := by
  intro s
  induction s using replaceAll.induct pat rep with
  | case1 => intro _; rw [replaceAll]
  | case2 c cs h ih =>
    intro H
    exact absurd h.2 (by simpa using H 0)
  | case3 c cs h ih =>
    intro H
    rw [replaceAll, dif_neg h, ih fun j hj => by simpa using H (j + 1) hj]

/-- Length accounting of the scan: each of the `countOccs` matches trades
`pat.length` characters for `rep.length` characters. -/
theorem replaceAll_length (pat rep : List Char) :
    ∀ s : List Char,
      (replaceAll pat rep s).length + pat.length * countOccs pat s
        = s.length + rep.length * countOccs pat s := by
  intro s
  induction s using replaceAll.induct pat rep with
  | case1 => rw [replaceAll, countOccs]; simp
  | case2 c cs h ih =>
    rw [replaceAll, dif_pos h, countOccs, dif_pos h]
    have hlen : (c :: cs).length
        = pat.length + ((c :: cs).drop pat.length).length := by
      conv_lhs => rw [eq_append_drop_of_pref h.2]
      rw [List.length_append]
    rw [List.length_append, hlen, Nat.mul_succ, Nat.mul_succ]
    linarith [ih]
  | case3 c cs h ih =>
    rw [replaceAll, dif_neg h, countOccs, dif_neg h, List.length_cons, List.length_cons]
    linarith [ih]

/-- Core invariant behind "no occurrence of the search literal remains": if
no tail of the replacement is prefix-comparable with the pattern (`h2`) and
no proper tail of the pattern is prefix-comparable with the replacement
(`h3`), then (a) no occurrence of the pattern starts anywhere in the output,
and (b) a proper tail of the pattern can be a prefix of the output only when
it already was one of the input. -/
theorem replaceAll_no_new_occ (pat rep : List Char) (hp : pat ≠ [])
    (h2 : ∀ j, j < rep.length → ¬ pat <+: rep.drop j ∧ ¬ rep.drop j <+: pat)
    (h3 : ∀ j, j < pat.length → 0 < j → ¬ pat.drop j <+: rep ∧ ¬ rep <+: pat.drop j) :
    ∀ s : List Char,
      (∀ j, ¬ pat <+: (replaceAll pat rep s).drop j) ∧
      (∀ j, 0 < j → pat.drop j <+: replaceAll pat rep s → pat.drop j <+: s) := by
  intro s
  induction s using replaceAll.induct pat rep with
  | case1 =>
    rw [replaceAll]
    exact ⟨fun j => by simpa using hp, fun j _ hpre => hpre⟩
  | case2 c cs h ih =>
    obtain ⟨ih1, ih2⟩ := ih
    rw [replaceAll, dif_pos h]
    constructor
    · intro j
      rcases Nat.lt_or_ge j rep.length with hj | hj
      · rw [List.drop_append_of_le_length (Nat.le_of_lt hj)]
        intro hpre
        rcases List.prefix_or_prefix_of_prefix hpre (List.prefix_append _ _) with hc | hc
        · exact (h2 j hj).1 hc
        · exact (h2 j hj).2 hc
      · have hj' : j = rep.length + (j - rep.length) := by omega
        rw [hj', List.drop_append]
        exact ih1 _
    · intro j hj hpre
      rcases Nat.lt_or_ge j pat.length with hjl | hjl
      · exfalso
        rcases List.prefix_or_prefix_of_prefix hpre (List.prefix_append _ _) with hc | hc
        · exact (h3 j hjl hj).1 hc
        · exact (h3 j hjl hj).2 hc
      · rw [List.drop_eq_nil_of_le hjl]
        exact List.nil_prefix
  | case3 c cs h ih =>
    have hnp : ¬ pat <+: c :: cs := fun hh => h ⟨hp, hh⟩
    obtain ⟨ih1, ih2⟩ := ih
    rw [replaceAll, dif_neg h]
    constructor
    · intro j
      cases j with
      | zero =>
        rw [List.drop_zero]
        intro hpre
        apply hnp
        cases hpat : pat with
        | nil => exact absurd hpat hp
        | cons p pt =>
          rw [hpat] at hpre
          rcases List.cons_prefix_cons.mp hpre with ⟨rfl, hpt⟩
          have hpt' : pat.drop 1 <+: replaceAll pat rep cs := by rw [hpat]; exact hpt
          have hcs : pat.drop 1 <+: cs := ih2 1 Nat.one_pos hpt'
          rw [hpat] at hcs
          exact List.cons_prefix_cons.mpr ⟨rfl, hcs⟩
      | succ k =>
        rw [List.drop_succ_cons]
        exact ih1 k
    · intro j hj hpre
      cases hd : pat.drop j with
      | nil => exact List.nil_prefix
      | cons d q =>
        rw [hd] at hpre
        rcases List.cons_prefix_cons.mp hpre with ⟨rfl, hq⟩
        have hq1 : pat.drop (j + 1) = q := by
          have h1 := congrArg (List.drop 1) hd
          rw [List.drop_drop] at h1
          simpa using h1
        have hqcs : pat.drop (j + 1) <+: cs := ih2 (j + 1) (by omega) (by rw [hq1]; exact hq)
        rw [hq1] at hqcs
        exact List.cons_prefix_cons.mpr ⟨rfl, hqcs⟩

/-- When the leftmost occurrence of the pattern starts at position `p`, the
scan copies the first `p` characters, emits the replacement, and continues
after the match. -/
theorem replaceAll_leftmost (pat rep : List Char) (hp : pat ≠ []) :
    ∀ (p : Nat) (s : List Char),
      (∀ j, j < p → ¬ pat <+: s.drop j) → pat <+: s.drop p →
      replaceAll pat rep s
        = s.take p ++ rep ++ replaceAll pat rep (s.drop (p + pat.length)) := by
  intro p
  induction p with
  | zero =>
    intro s hbefore hat
    rw [List.drop_zero] at hat
    cases s with
    | nil => exact absurd (List.prefix_nil.mp hat) hp
    | cons c cs =>
      rw [replaceAll, dif_pos ⟨hp, hat⟩]
      simp
  | succ k ihk =>
    intro s hbefore hat
    cases s with
    | nil => exact absurd (List.prefix_nil.mp (by simpa using hat)) hp
    | cons c cs =>
      have h0 : ¬ pat <+: c :: cs := by simpa using hbefore 0 (Nat.succ_pos k)
      rw [replaceAll, dif_neg (fun hh => h0 hh.2)]
      have hrec := ihk cs (fun j hj => by simpa using hbefore (j + 1) (by omega))
        (by simpa using hat)
      rw [hrec]
      have hdrop : (c :: cs).drop (k + 1 + pat.length) = cs.drop (k + pat.length) := by
        have : k + 1 + pat.length = (k + pat.length) + 1 := by omega
        rw [this, List.drop_succ_cons]
      rw [hdrop, List.take_succ_cons]
      simp

/-- Filesystem paths (the script receives the path as a string). -/
abbrev Path := List Char

/-- Filesystem: what content, if any, each path holds. -/
abbrev FileSystem := Path → Option (List Char)

/-- Ways a run of the script can fail: `sys.argv[1]` raising on a missing
argument (line 3), or `open(patch_path, "r")` raising when the path names no
file (line 6). -/
inductive PatchError where
  | missingArg
  | fileNotFound
deriving DecidableEq

/-- Observable outcome of one run of the script: the error (if any), the
final filesystem, everything printed on the standard streams, and which
files were opened for reading resp. writing. -/
structure RunOutcome where
  error : Option PatchError
  fs : FileSystem
  stdout : List Char
  stderrText : List Char
  reads : List Path
  writes : List Path

/-- One run of `scripts/patch_ordinals_api.py` with argument vector `argv`
(`argv.drop 1` are the arguments after the program name, so `sys.argv[1]`
is the head of `argv.drop 1`): take the path from `sys.argv[1]` (line 3),
read the file (lines 6-7), replace the literal (line 10), write the result
back to the same path (lines 13-14).  An uncaught exception leaves the
filesystem untouched and prints a diagnostic on standard error; the script
itself prints nothing. -/
def runPatcher (argv : List Path) (fs : FileSystem) : RunOutcome :=
  match argv.drop 1 with
  | [] =>
    ⟨some PatchError.missingArg, fs, [],
      "IndexError: list index out of range".toList, [], []⟩
  | path :: _ =>
    match fs path with
    | none =>
      ⟨some PatchError.fileNotFound, fs, [],
        "FileNotFoundError: No such file or directory".toList, [], []⟩
    | some content =>
      ⟨none, fun q => if q = path then some (patchContent content) else fs q,
        [], [], [path], [path]⟩

theorem runPatcher_found {argv : List Path} {fs : FileSystem} {path : Path}
    {rest : List Path} {content : List Char}
    (hargv : argv.drop 1 = path :: rest) (hfile : fs path = some content) :
    runPatcher argv fs =
      ⟨none, fun q => if q = path then some (patchContent content) else fs q,
        [], [], [path], [path]⟩ := by
  simp only [runPatcher, hargv, hfile]

theorem runPatcher_noFile {argv : List Path} {fs : FileSystem} {path : Path}
    {rest : List Path}
    (hargv : argv.drop 1 = path :: rest) (hfile : fs path = none) :
    runPatcher argv fs =
      ⟨some PatchError.fileNotFound, fs, [],
        "FileNotFoundError: No such file or directory".toList, [], []⟩ := by
  simp only [runPatcher, hargv, hfile]

theorem runPatcher_noArg {argv : List Path} {fs : FileSystem}
    (hargv : argv.drop 1 = []) :
    runPatcher argv fs =
      ⟨some PatchError.missingArg, fs, [],
        "IndexError: list index out of range".toList, [], []⟩ := by
  simp only [runPatcher, hargv]

theorem litCondRep : ∀ j, j < replLit.length →
    ¬ searchLit <+: replLit.drop j ∧ ¬ replLit.drop j <+: searchLit := by decide

theorem litCondPat : ∀ j, j < searchLit.length → 0 < j →
    ¬ searchLit.drop j <+: replLit ∧ ¬ replLit <+: searchLit.drop j := by decide

/-- No occurrence of the search literal survives the patch. -/
theorem patchContent_no_occ (s : List Char) :
    ∀ j, ¬ searchLit <+: (patchContent s).drop j :=
  (replaceAll_no_new_occ searchLit replLit searchLit_ne_nil litCondRep litCondPat s).1

/-- The patch transformation is idempotent on contents. -/
theorem patchContent_idem (s : List Char) :
    patchContent (patchContent s) = patchContent s :=
  replaceAll_of_no_occ searchLit replLit (patchContent s) (patchContent_no_occ s)

/-- C1: For every initial file content, running the patcher on the file's
path leaves the file containing a string equal to the original content with
every non-overlapping occurrence of the search literal
`export const BRC20_GENESIS_BLOCK = 779832;` replaced, left to right, by
`export const BRC20_GENESIS_BLOCK = 0;`: the content splits as the greedy
left-to-right decomposition `List.intercalate searchLit chunks`, and the
file afterwards holds `List.intercalate replLit chunks`, i.e. with every
separator — in particular both of two occurrences — rewritten. -/
theorem patcher_replace_all_semantics
    (argv : List Path) (fs : FileSystem) (path : Path) (rest : List Path)
    (content : List Char)
    (hargv : argv.drop 1 = path :: rest) (hfile : fs path = some content) :
    ∃ chunks : List (List Char),
      GreedyDecomp searchLit chunks ∧
      content = List.intercalate searchLit chunks ∧
      (runPatcher argv fs).fs path = some (List.intercalate replLit chunks) := by
  obtain ⟨chunks, hg, hsv, hr⟩ :=
    replaceAll_decomp searchLit replLit searchLit_ne_nil content
  refine ⟨chunks, hg, hsv, ?_⟩
  rw [runPatcher_found hargv hfile]
  simp only []
  rw [if_pos trivial, patchContent, hr]

/-- C2: For every file whose content contains the search literal — say its
leftmost occurrence starts at position `k` — after running the patcher the
file's content carries the replacement literal at that same position `k`,
with the first `k` characters unchanged, and no occurrence of the original
literal remains anywhere. -/
theorem patcher_replacement_applied
    (argv : List Path) (fs : FileSystem) (path : Path) (rest : List Path)
    (content : List Char) (k : Nat)
    (hargv : argv.drop 1 = path :: rest) (hfile : fs path = some content)
    (hocc : searchLit <+: content.drop k)
    (hleft : ∀ j, j < k → ¬ searchLit <+: content.drop j) :
    ∃ t, (runPatcher argv fs).fs path = some t ∧
      t.take k = content.take k ∧
      replLit <+: t.drop k ∧
      ¬ searchLit <:+: t := by
  have hform :=
    replaceAll_leftmost searchLit replLit searchLit_ne_nil k content hleft hocc
  have hklen : k ≤ content.length := by
    by_contra hk
    push_neg at hk
    rw [List.drop_eq_nil_of_le (Nat.le_of_lt hk)] at hocc
    exact searchLit_ne_nil (List.prefix_nil.mp hocc)
  have htake : (content.take k).length = k := by
    rw [List.length_take]
    omega
  have hpc : patchContent content
      = content.take k
        ++ (replLit ++ replaceAll searchLit replLit
              (content.drop (k + searchLit.length))) := by
    rw [patchContent, hform, List.append_assoc]
  refine ⟨patchContent content, ?_, ?_, ?_, ?_⟩
  · rw [runPatcher_found hargv hfile]
    simp only []
    rw [if_pos trivial]
  · rw [hpc, List.take_left' htake]
  · rw [hpc, List.drop_left' htake]
    exact List.prefix_append _ _
  · rw [infixIffOcc]
    rintro ⟨j, hj⟩
    exact patchContent_no_occ content j hj

/-- C3: For every file whose content does not contain the search literal,
running the patcher leaves the file's content identical to its content
before the run. -/
theorem patcher_noop_when_absent
    (argv : List Path) (fs : FileSystem) (path : Path) (rest : List Path)
    (content : List Char)
    (hargv : argv.drop 1 = path :: rest) (hfile : fs path = some content)
    (habs : ¬ searchLit <:+: content) :
    (runPatcher argv fs).fs path = some content := by
  have hno : ∀ j, ¬ searchLit <+: content.drop j := by
    intro j hj
    exact habs ((infixIffOcc searchLit content).mpr ⟨j, hj⟩)
  rw [runPatcher_found hargv hfile]
  simp only []
  rw [if_pos trivial, patchContent, replaceAll_of_no_occ searchLit replLit content hno]

/-- C4: Running the patcher alters only the spans matching the search
literal: the content cuts into the greedily matched separators and the
pieces `chunks` outside them, and the output is the same `chunks` — every
character outside the matched spans, in the same relative order — with only
the separator spans rewritten. -/
theorem patcher_surrounding_preserved
    (argv : List Path) (fs : FileSystem) (path : Path) (rest : List Path)
    (content : List Char)
    (hargv : argv.drop 1 = path :: rest) (hfile : fs path = some content) :
    ∃ chunks : List (List Char),
      content = List.intercalate searchLit chunks ∧
      (runPatcher argv fs).fs path = some (List.intercalate replLit chunks) ∧
      GreedyDecomp searchLit chunks := by
  obtain ⟨chunks, hg, hsv, hr⟩ :=
    replaceAll_decomp searchLit replLit searchLit_ne_nil content
  refine ⟨chunks, hsv, ?_, hg⟩
  rw [runPatcher_found hargv hfile]
  simp only []
  rw [if_pos trivial, patchContent, hr]

/-- C5: The patch transformation is idempotent: running the patcher twice in
succession on the same file yields the same final content as running it
once. -/
theorem patcher_idempotent
    (argv : List Path) (fs : FileSystem) (path : Path) (rest : List Path)
    (content : List Char)
    (hargv : argv.drop 1 = path :: rest) (hfile : fs path = some content) :
    (runPatcher argv (runPatcher argv fs).fs).fs path
      = (runPatcher argv fs).fs path := by
  have hfs1 : (runPatcher argv fs).fs path = some (patchContent content) := by
    rw [runPatcher_found hargv hfile]
    simp only []
    rw [if_pos trivial]
  rw [runPatcher_found hargv hfs1, hfs1]
  simp only []
  rw [if_pos trivial, patchContent_idem]

/-- C6: For every path that holds no file, running the patcher on that path
terminates with a file-access error, creates no file at that path, and
leaves the whole filesystem unchanged. -/
theorem patcher_missing_file
    (argv : List Path) (fs : FileSystem) (path : Path) (rest : List Path)
    (hargv : argv.drop 1 = path :: rest) (hfile : fs path = none) :
    (runPatcher argv fs).error = some PatchError.fileNotFound ∧
    (runPatcher argv fs).fs path = none ∧
    ∀ q, (runPatcher argv fs).fs q = fs q := by
  rw [runPatcher_noFile hargv hfile]
  exact ⟨rfl, hfile, fun q => rfl⟩

/-- C7: When the patcher is invoked with no path argument it terminates with
a missing-argument error, with no file read or written and the filesystem
untouched. -/
theorem patcher_missing_argument
    (argv : List Path) (fs : FileSystem) (hargv : argv.drop 1 = []) :
    (runPatcher argv fs).error = some PatchError.missingArg ∧
    (∀ q, (runPatcher argv fs).fs q = fs q) ∧
    (runPatcher argv fs).reads = [] ∧
    (runPatcher argv fs).writes = [] := by
  rw [runPatcher_noArg hargv]
  exact ⟨rfl, fun q => rfl, rfl, rfl⟩

/-- C8: On a successful run the patcher's only observable effect is the
mutation of the file at the given path: no error, nothing on standard
output or standard error, only the target written, and every other path
unchanged. -/
theorem patcher_side_effects_only_target
    (argv : List Path) (fs : FileSystem) (path : Path) (rest : List Path)
    (content : List Char)
    (hargv : argv.drop 1 = path :: rest) (hfile : fs path = some content) :
    (runPatcher argv fs).error = none ∧
    (runPatcher argv fs).stdout = [] ∧
    (runPatcher argv fs).stderrText = [] ∧
    (runPatcher argv fs).writes = [path] ∧
    ∀ q, q ≠ path → (runPatcher argv fs).fs q = fs q := by
  rw [runPatcher_found hargv hfile]
  refine ⟨rfl, rfl, rfl, rfl, fun q hq => ?_⟩
  simp only []
  rw [if_neg hq]

/-- C9: The patcher is deterministic: the final content of the target file
is a function of its initial content alone — two runs on files with the
same initial content end with the same content, whatever the paths, the
rest of the filesystems, or the rest of the argument vectors. -/
theorem patcher_deterministic
    (argv₁ argv₂ : List Path) (fs₁ fs₂ : FileSystem) (p₁ p₂ : Path)
    (r₁ r₂ : List Path) (content : List Char)
    (h₁ : argv₁.drop 1 = p₁ :: r₁) (h₂ : argv₂.drop 1 = p₂ :: r₂)
    (hf₁ : fs₁ p₁ = some content) (hf₂ : fs₂ p₂ = some content) :
    (runPatcher argv₁ fs₁).fs p₁ = (runPatcher argv₂ fs₂).fs p₂ := by
  rw [runPatcher_found h₁ hf₁, runPatcher_found h₂ hf₂]
  simp only []
  rw [if_pos trivial, if_pos trivial]

/-- C10: The patcher never lengthens the file: the final content's length
equals the initial length minus five characters per (greedy,
non-overlapping) occurrence of the search literal, so it never exceeds the
initial length. -/
theorem patcher_never_lengthens
    (argv : List Path) (fs : FileSystem) (path : Path) (rest : List Path)
    (content : List Char)
    (hargv : argv.drop 1 = path :: rest) (hfile : fs path = some content) :
    ∃ t, (runPatcher argv fs).fs path = some t ∧
      t.length + 5 * countOccs searchLit content = content.length ∧
      t.length ≤ content.length := by
  have hlen := replaceAll_length searchLit replLit content
  rw [searchLit_length, replLit_length] at hlen
  have hlen' : (patchContent content).length + 42 * countOccs searchLit content
      = content.length + 37 * countOccs searchLit content := hlen
  refine ⟨patchContent content, ?_, by omega, by omega⟩
  rw [runPatcher_found hargv hfile]
  simp only []
  rw [if_pos trivial]

/-- Witness for C1 at a concrete run: argument vector `[p, f]`, a filesystem
holding `"x"` at path `f`. -/
theorem patcher_replace_all_semantics_witness :
    ∃ chunks : List (List Char),
      GreedyDecomp searchLit chunks ∧
      ['x'] = List.intercalate searchLit chunks ∧
      (runPatcher [['p'], ['f']]
        (fun w => if w = ['f'] then some ['x'] else none)).fs ['f']
        = some (List.intercalate replLit chunks) :=
  patcher_replace_all_semantics [['p'], ['f']] _ ['f'] [] ['x'] rfl (by simp)

/-- Witness for C2 at a concrete run: the file at `f` holds exactly the
search literal, whose leftmost occurrence starts at position 0. -/
theorem patcher_replacement_applied_witness :
    ∃ t, (runPatcher [['p'], ['f']]
        (fun w => if w = ['f'] then some searchLit else none)).fs ['f'] = some t ∧
      t.take 0 = searchLit.take 0 ∧
      replLit <+: t.drop 0 ∧
      ¬ searchLit <:+: t :=
  patcher_replacement_applied [['p'], ['f']] _ ['f'] [] searchLit 0 rfl (by simp)
    (by simp) (fun j hj => absurd hj (Nat.not_lt_zero j))

/-- Witness for C3 at a concrete run: the file at `f` holds `"x"`, which does
not contain the search literal. -/
theorem patcher_noop_when_absent_witness :
    (runPatcher [['p'], ['f']]
      (fun w => if w = ['f'] then some ['x'] else none)).fs ['f'] = some ['x'] :=
  patcher_noop_when_absent [['p'], ['f']] _ ['f'] [] ['x'] rfl (by simp) (by decide)

/-- Witness for C4 at a concrete run on the file `"x"`. -/
theorem patcher_surrounding_preserved_witness :
    ∃ chunks : List (List Char),
      ['x'] = List.intercalate searchLit chunks ∧
      (runPatcher [['p'], ['f']]
        (fun w => if w = ['f'] then some ['x'] else none)).fs ['f']
        = some (List.intercalate replLit chunks) ∧
      GreedyDecomp searchLit chunks :=
  patcher_surrounding_preserved [['p'], ['f']] _ ['f'] [] ['x'] rfl (by simp)

/-- Witness for C5 at a concrete run on the file `"x"`. -/
theorem patcher_idempotent_witness :
    (runPatcher [['p'], ['f']]
        (runPatcher [['p'], ['f']]
          (fun w => if w = ['f'] then some ['x'] else none)).fs).fs ['f']
      = (runPatcher [['p'], ['f']]
          (fun w => if w = ['f'] then some ['x'] else none)).fs ['f'] :=
  patcher_idempotent [['p'], ['f']] _ ['f'] [] ['x'] rfl (by simp)

/-- Witness for C6 at a concrete run: the filesystem is empty, so path `f`
names no file. -/
theorem patcher_missing_file_witness :
    (runPatcher [['p'], ['f']] (fun _ => none)).error
        = some PatchError.fileNotFound ∧
    (runPatcher [['p'], ['f']] (fun _ => none)).fs ['f'] = none ∧
    ∀ q, (runPatcher [['p'], ['f']] (fun _ => none)).fs q
        = (fun _ => none : FileSystem) q :=
  patcher_missing_file [['p'], ['f']] _ ['f'] [] rfl rfl

/-- Witness for C7 at a concrete run: the argument vector holds only the
program name. -/
theorem patcher_missing_argument_witness :
    (runPatcher [['p']] (fun _ => none)).error = some PatchError.missingArg ∧
    (∀ q, (runPatcher [['p']] (fun _ => none)).fs q
        = (fun _ => none : FileSystem) q) ∧
    (runPatcher [['p']] (fun _ => none)).reads = [] ∧
    (runPatcher [['p']] (fun _ => none)).writes = [] :=
  patcher_missing_argument [['p']] _ rfl

/-- Witness for C8 at a concrete run on the file `"x"`. -/
theorem patcher_side_effects_only_target_witness :
    (runPatcher [['p'], ['f']]
        (fun w => if w = ['f'] then some ['x'] else none)).error = none ∧
    (runPatcher [['p'], ['f']]
        (fun w => if w = ['f'] then some ['x'] else none)).stdout = [] ∧
    (runPatcher [['p'], ['f']]
        (fun w => if w = ['f'] then some ['x'] else none)).stderrText = [] ∧
    (runPatcher [['p'], ['f']]
        (fun w => if w = ['f'] then some ['x'] else none)).writes = [['f']] ∧
    ∀ q, q ≠ ['f'] →
      (runPatcher [['p'], ['f']]
        (fun w => if w = ['f'] then some ['x'] else none)).fs q
        = (fun w => if w = ['f'] then some ['x'] else none : FileSystem) q :=
  patcher_side_effects_only_target [['p'], ['f']] _ ['f'] [] ['x'] rfl (by simp)

/-- Witness for C9 at two concrete runs: different program names, paths and
filesystems, same initial content `"x"` of the target. -/
theorem patcher_deterministic_witness :
    (runPatcher [['p'], ['a']]
        (fun w => if w = ['a'] then some ['x'] else none)).fs ['a']
      = (runPatcher [['q'], ['b']]
          (fun w => if w = ['b'] then some ['x'] else none)).fs ['b'] :=
  patcher_deterministic [['p'], ['a']] [['q'], ['b']] _ _ ['a'] ['b'] [] [] ['x']
    rfl rfl (by simp) (by simp)

/-- Witness for C10 at a concrete run on the file `"x"`. -/
theorem patcher_never_lengthens_witness :
    ∃ t, (runPatcher [['p'], ['f']]
        (fun w => if w = ['f'] then some ['x'] else none)).fs ['f'] = some t ∧
      t.length + 5 * countOccs searchLit ['x'] = (['x'] : List Char).length ∧
      t.length ≤ (['x'] : List Char).length :=
  patcher_never_lengthens [['p'], ['f']] _ ['f'] [] ['x'] rfl (by simp)

end PatchOrdinals
